import Mathlib

/-!
Verification of the karaoke caption layout and frame-rendering engine
(`src/03_render_video.py`): line segmentation, the per-frame active-line
selector, the per-word progressive-fill compositor, and the frame pump.
Times are modelled as rationals, pixel measurements as integers.
-/

namespace Karaoke

/-- A word record of the transcript, as produced by stage 2 and consumed by
`segment_lines` / `render_frame`: `{"word": str, "start": float, "end": float,
"conf": float, "source": str}`.  Only `word`, `start` and `end` are read by the
renderer. -/
structure Word where
  word : String
  start : ℚ
  «end» : ℚ
  conf : ℚ
  source : String
deriving DecidableEq, Repr, Inhabited

/-- Python's `str.strip()`: remove leading and trailing whitespace characters
(modelled on the string's character list). -/
def strip (s : String) : String :=
  ⟨((s.data.dropWhile Char.isWhitespace).reverse.dropWhile Char.isWhitespace).reverse⟩

/-- The character count the segmenter tracks for a line: stripped word lengths
plus one separator between consecutive words (`chars` in the Python loop). -/
def lineChars (l : List Word) : ℕ :=
  (l.map fun w => (strip w.word).length).sum + (l.length - 1)

/-- The loop body of `segment_lines`: state is the accumulated `current` line
and its running character count `chars`; finished lines are emitted in order.
Mirrors lines 74-88 of `src/03_render_video.py`. -/
def segLoop (max_chars max_words : ℕ) : List Word → List Word → ℕ → List (List Word)
  | [], current, _ => if current.isEmpty then [] else [current]
  | w :: ws, current, chars =>
    let wt := strip w.word
    if wt = "" then
      segLoop max_chars max_words ws current chars
    else
      let projected := chars + wt.length + (if current.isEmpty then 0 else 1)
      if ¬current.isEmpty ∧ (projected > max_chars ∨ current.length ≥ max_words) then
        current :: segLoop max_chars max_words ws [w] wt.length
      else
        segLoop max_chars max_words ws (current ++ [w]) projected

/-- `segment_lines(words, max_chars=32, max_words=6)`: greedy single-pass
grouping of words into display lines. -/
def segment_lines (words : List Word) (max_chars : ℕ := 32) (max_words : ℕ := 6) :
    List (List Word) :=
  segLoop max_chars max_words words [] 0

/-- An RGB color, as the Python `(r, g, b)` tuples. -/
def Color := ℕ × ℕ × ℕ
deriving DecidableEq, Repr

/-- `COLOR_INACTIVE = (255, 255, 255)` — white, "upcoming" (the comment in the
source labels this tone `upcoming`: words of the active line not yet reached). -/
def COLOR_INACTIVE : Color := (255, 255, 255)

/-- `COLOR_ACTIVE = (255, 220, 0)` — yellow, currently sung (wipe). -/
def COLOR_ACTIVE : Color := (255, 220, 0)

/-- `COLOR_SUNG = (80, 80, 80)` — dim grey, already done. -/
def COLOR_SUNG : Color := (80, 80, 80)

/-- `COLOR_UPCOMING = (160, 160, 180)` — blue-grey, next-line preview. -/
def COLOR_UPCOMING : Color := (160, 160, 180)

/-- The progressive-fill fraction computed in the active-word branch of
`render_frame` (lines 171-172): `frac = (t - start) / max(end - start, 0.01)`
then `frac = min(1.0, frac)`. -/
def frac_of (w : Word) (t : ℚ) : ℚ :=
  min 1 ((t - w.start) / max (w.«end» - w.start) (1 / 100))

/-- The per-character pass of the progressive fill (lines 182-190): the cursor
`cx` starts at the word's left edge `x`; a character of width `chw` is drawn
`COLOR_ACTIVE` when `cx + chw // 2 <= x + fill_px`, else `COLOR_INACTIVE`, and
the cursor advances by `chw`. -/
def charFill (x fill_px : ℤ) : List ℕ → ℤ → List Color
  | [], _ => []
  | chw :: rest, cx =>
    (if cx + ((chw / 2 : ℕ) : ℤ) ≤ x + fill_px then COLOR_ACTIVE else COLOR_INACTIVE) ::
      charFill x fill_px rest (cx + (chw : ℤ))

/-- The color sequence `render_frame` gives the characters of one word of the
active line at time `t` (lines 165-192): `pw` is the measured pixel width of
the word's text (trailing space included), `charWidths` the measured widths of
its characters, `x` the word's left edge.  `end <= t` draws everything
`COLOR_SUNG`; `start <= t < end` runs the progressive fill with
`fill_px = int(pw * frac)`; otherwise everything is `COLOR_INACTIVE`. -/
def renderActiveWord (w : Word) (t : ℚ) (x : ℤ) (pw : ℕ) (charWidths : List ℕ) :
    List Color :=
  if w.«end» ≤ t then
    charWidths.map fun _ => COLOR_SUNG
  else if w.start ≤ t ∧ t < w.«end» then
    charFill x (Int.floor ((pw : ℚ) * frac_of w t)) charWidths x
  else
    charWidths.map fun _ => COLOR_INACTIVE

/-- Offsets of the character midpoints from the word's left edge: character
`i` of width `chw` starting at offset `acc` has midpoint offset `acc + chw // 2`. -/
def charMidpoints : List ℕ → ℕ → List ℕ
  | [], _ => []
  | chw :: rest, acc => (acc + chw / 2) :: charMidpoints rest (acc + chw)

/-- `line[0]["start"]` (`flat_start` in `get_active_line_for_time`). -/
def lineStart (line : List Word) : ℚ :=
  match line with
  | [] => 0
  | w :: _ => w.start

/-- `line[-1]["end"]` (`flat_end` in `get_active_line_for_time`). -/
def lineEnd (line : List Word) : ℚ :=
  match line.getLast? with
  | some w => w.«end»
  | none => 0

/-- First loop of `get_active_line_for_time` (lines 198-202): the index of the
first line whose span `[flat_start, flat_end + 0.1]` contains `t`. -/
def findActiveLine (t : ℚ) : List (List Word) → Option ℕ
  | [] => none
  | line :: rest =>
    if lineStart line ≤ t ∧ t ≤ lineEnd line + 1 / 10 then some 0
    else (findActiveLine t rest).map (· + 1)

/-- Second loop of `get_active_line_for_time` (lines 204-206): the first line
whose start strictly exceeds `t`. -/
def findNextLine (t : ℚ) : List (List Word) → Option (List Word)
  | [] => none
  | line :: rest => if lineStart line > t then some line else findNextLine t rest

/-- `get_active_line_for_time(lines, t)` returns
`(line_idx, is_silence, seconds_to_next)` (lines 196-207). -/
def get_active_line_for_time (lines : List (List Word)) (t : ℚ) :
    Option ℕ × Bool × ℚ :=
  match findActiveLine t lines with
  | some li => (some li, false, 0)
  | none =>
    match findNextLine t lines with
    | some line => (none, true, lineStart line - t)
    | none => (none, true, 0)

/-- `FPS = 30` from the config block. -/
def FPS : ℕ := 30

/-- What kind of frame the render loop body (lines 257-273) draws at one
timestamp: the silence branch (preview plus countdown) when
`is_silence and time_to_next > 0`, the normal lyric frame when an active line
exists, else the title card. -/
inductive FrameKind where
  | silencePreview
  | activeLine (idx : ℕ)
  | titleCard
deriving DecidableEq, Repr

/-- The frame-kind dispatch of the render loop body for one timestamp `t`. -/
def frameKindAt (lines : List (List Word)) (t : ℚ) : FrameKind :=
  let r := get_active_line_for_time lines t
  if r.2.1 = true ∧ r.2.2 > 0 then .silencePreview
  else
    match r.1 with
    | some li => .activeLine li
    | none => .titleCard

/-- Observable outcome of `render_video` (lines 210-282): whether the ffmpeg
encoder pipe was opened, and the stream of frames written to it, in write
order, each tagged with its frame index, its timestamp `t = fn / FPS`, and the
kind of frame drawn. -/
structure RenderResult where
  pipeOpened : Bool
  frames : List (ℕ × ℚ × FrameKind)
deriving DecidableEq, Repr

/-- Model of `render_video`: probes the duration (passed in here, see
`get_audio_duration`), computes `total_frames = int(duration * FPS)`, segments
the words with the default `max_chars=32, max_words=6`, unconditionally opens
the encoder pipe, and writes one frame per `fn in range(total_frames)` at
`t = fn / FPS`.  `fps` is the `FPS` configuration constant. -/
def render_video (words : List Word) (duration : ℚ) (fps : ℕ) : RenderResult :=
  let total_frames := (Int.floor (duration * fps)).toNat
  let lines := segment_lines words 32 6
  { pipeOpened := true
    frames := (List.range total_frames).map fun fn =>
      (fn, (fn : ℚ) / fps, frameKindAt lines ((fn : ℚ) / fps)) }

/-- Exceptions a call of `get_audio_duration` could be measured against:
`valueError` is Python's `ValueError` (raised by `float(...)` on unparseable
input); `audioProbeError` is the error type named by the specification, which
does not occur anywhere in the source. -/
inductive PyExc where
  | valueError
  | audioProbeError
deriving DecidableEq, Repr

/-- `get_audio_duration(audio_file)` (lines 91-97) runs ffprobe and returns
`float(r.stdout.strip())`.  The external probe call is modelled by its
observable result: `probe` is `some d` when the stripped stdout parses as the
float `d` (which is what ffprobe prints for an existing readable file), and
`none` when it does not parse as a float — in particular when the file is
missing, where ffprobe prints nothing and `float("")` raises `ValueError`.
No check of any kind is applied to a parsed value. -/
def get_audio_duration (probe : Option ℚ) : Except PyExc ℚ :=
  match probe with
  | some d => .ok d
  | none => .error .valueError

section SegmenterLemmas

lemma lineChars_nil : lineChars [] = 0 := rfl

lemma lineChars_singleton (w : Word) : lineChars [w] = (strip w.word).length := by
  simp [lineChars]

lemma lineChars_append (l : List Word) (w : Word) :
    lineChars (l ++ [w])
      = lineChars l + (strip w.word).length + (if l.isEmpty then 0 else 1) := by
  cases l with
  | nil => simp [lineChars]
  | cons x xs => simp [lineChars, List.sum_append]; omega

lemma segLoop_nil (mc mw : ℕ) (current : List Word) (chars : ℕ) :
    segLoop mc mw [] current chars = if current.isEmpty then [] else [current] := rfl

lemma segLoop_cons_drop (mc mw : ℕ) (w : Word) (ws current : List Word) (chars : ℕ)
    (h : strip w.word = "") :
    segLoop mc mw (w :: ws) current chars = segLoop mc mw ws current chars := by
  simp [segLoop, h]

lemma segLoop_cons_close (mc mw : ℕ) (w : Word) (ws current : List Word) (chars : ℕ)
    (h : ¬strip w.word = "")
    (h2 : ¬current.isEmpty
      ∧ (chars + (strip w.word).length + (if current.isEmpty then 0 else 1) > mc
          ∨ current.length ≥ mw)) :
    segLoop mc mw (w :: ws) current chars
      = current :: segLoop mc mw ws [w] (strip w.word).length := by
  simp only [segLoop, if_neg h, if_pos h2]

lemma segLoop_cons_append (mc mw : ℕ) (w : Word) (ws current : List Word) (chars : ℕ)
    (h : ¬strip w.word = "")
    (h2 : ¬(¬current.isEmpty
      ∧ (chars + (strip w.word).length + (if current.isEmpty then 0 else 1) > mc
          ∨ current.length ≥ mw))) :
    segLoop mc mw (w :: ws) current chars
      = segLoop mc mw ws (current ++ [w])
          (chars + (strip w.word).length + (if current.isEmpty then 0 else 1)) := by
  simp only [segLoop, if_neg h, if_neg h2]

/-- Master invariant of the segmentation loop: with an accumulator that
satisfies the running invariants, every emitted line is non-empty, respects
the word cap `max mw 1`, has total character projection at most `mc` when it
has at least two words, isolates over-long words, and the concatenation of all
emitted lines is the accumulator followed by the non-blank input words. -/
lemma segLoop_main (mc mw : ℕ) (ws : List Word) :
    ∀ (current : List Word) (chars : ℕ),
      chars = lineChars current →
      current.length ≤ max mw 1 →
      (2 ≤ current.length → lineChars current ≤ mc) →
      (∀ w ∈ current, mc < (strip w.word).length → current = [w]) →
      (segLoop mc mw ws current chars).flatten
          = current ++ ws.filter (fun w => !(strip w.word == ""))
        ∧ ∀ l ∈ segLoop mc mw ws current chars,
            l ≠ [] ∧ l.length ≤ max mw 1 ∧ (2 ≤ l.length → lineChars l ≤ mc)
              ∧ ∀ w ∈ l, mc < (strip w.word).length → l = [w] := by
  induction ws with
  | nil =>
    intro current chars h1 h2 h3 h4
    rw [segLoop_nil]
    by_cases hc : current.isEmpty
    · rw [List.isEmpty_iff] at hc
      subst hc
      simp
    · rw [if_neg hc, List.isEmpty_iff] at *
      refine ⟨by simp, ?_⟩
      intro l hl
      simp only [List.mem_singleton] at hl
      subst hl
      exact ⟨hc, h2, h3, h4⟩
  | cons w ws ih =>
    intro current chars h1 h2 h3 h4
    by_cases hwt : strip w.word = ""
    · rw [segLoop_cons_drop mc mw w ws current chars hwt]
      have := ih current chars h1 h2 h3 h4
      simpa [List.filter_cons, hwt] using this
    · by_cases hcl : ¬current.isEmpty
        ∧ (chars + (strip w.word).length + (if current.isEmpty then 0 else 1) > mc
            ∨ current.length ≥ mw)
      · rw [segLoop_cons_close mc mw w ws current chars hwt hcl]
        have hcur : current ≠ [] := by
          simpa [List.isEmpty_iff] using hcl.1
        have ihr := ih [w] (strip w.word).length (by simp [lineChars_singleton])
          (by simp) (by simp) (by simp)
        refine ⟨?_, ?_⟩
        · simp only [List.flatten_cons, ihr.1, List.filter_cons, hwt]
          simp [hwt]
        · intro l hl
          rcases List.mem_cons.mp hl with hl | hl
          · subst hl
            exact ⟨hcur, h2, h3, h4⟩
          · exact ihr.2 l hl
      · rw [segLoop_cons_append mc mw w ws current chars hwt hcl]
        push_neg at hcl
        -- either the current line is empty, or the projected size fits
        have hsplit : current = []
            ∨ (chars + (strip w.word).length + 1 ≤ mc ∧ current.length < mw) := by
          by_cases hce : current.isEmpty
          · exact Or.inl (List.isEmpty_iff.mp hce)
          · have := hcl hce
            rw [if_neg hce] at this
            omega
        have hproj : chars + (strip w.word).length + (if current.isEmpty then 0 else 1)
            = lineChars (current ++ [w]) := by
          rw [lineChars_append, h1]
        have hlen : (current ++ [w]).length ≤ max mw 1 := by
          rcases hsplit with hc0 | ⟨_, hlt⟩
          · subst hc0; simp
          · simp only [List.length_append, List.length_singleton]
            omega
        have hchars : 2 ≤ (current ++ [w]).length → lineChars (current ++ [w]) ≤ mc := by
          intro h2len
          rcases hsplit with hc0 | ⟨hle, _⟩
          · subst hc0; simp at h2len
          · have hce : ¬current.isEmpty := by
              rcases current with _ | _
              · simp at h2len
              · simp
            rw [← hproj, if_neg hce]
            exact hle
        have hlong : ∀ w' ∈ current ++ [w],
            mc < (strip w'.word).length → current ++ [w] = [w'] := by
          intro w' hw' hw'len
          rcases hsplit with hc0 | ⟨hle, _⟩
          · subst hc0
            simp only [List.nil_append, List.mem_singleton] at hw'
            subst hw'
            simp
          · rcases List.mem_append.mp hw' with hin | hin
            · -- an over-long word already inside `current` contradicts the fit
              have hcw : current = [w'] := h4 w' hin hw'len
              rw [hcw, lineChars_singleton] at h1
              omega
            · simp only [List.mem_singleton] at hin
              subst hin
              omega
        have ihr := ih (current ++ [w])
          (chars + (strip w.word).length + (if current.isEmpty then 0 else 1))
          hproj hlen hchars hlong
        refine ⟨?_, ihr.2⟩
        rw [ihr.1]
        simp [List.filter_cons, hwt]
/-- The line-break structure (sequence of line sizes) produced by the
segmentation loop depends only on the stripped texts of the input words and
the length of the accumulator. -/
lemma segLoop_shape (mc mw : ℕ) :
    ∀ (ws1 ws2 current1 current2 : List Word) (chars : ℕ),
      ws1.map (fun w => strip w.word) = ws2.map (fun w => strip w.word) →
      current1.length = current2.length →
      (segLoop mc mw ws1 current1 chars).map List.length
        = (segLoop mc mw ws2 current2 chars).map List.length := by
  intro ws1
  induction ws1 with
  | nil =>
    intro ws2 current1 current2 chars hmap hlen
    rw [List.map_nil, eq_comm, List.map_eq_nil_iff] at hmap
    subst hmap
    rw [segLoop_nil, segLoop_nil]
    have he : current1.isEmpty = current2.isEmpty := by
      rcases current1 with _ | _ <;> rcases current2 with _ | _ <;> simp_all
    by_cases hc : current1.isEmpty
    · rw [if_pos hc, if_pos (he ▸ hc)]
    · rw [if_neg hc, if_neg (he ▸ hc)]
      simp [hlen]
  | cons w1 ws1 ih =>
    intro ws2 current1 current2 chars hmap hlen
    rcases ws2 with _ | ⟨w2, ws2⟩
    · simp at hmap
    · simp only [List.map_cons, List.cons.injEq] at hmap
      obtain ⟨hw, hws⟩ := hmap
      have he : current1.isEmpty = current2.isEmpty := by
        rcases current1 with _ | _ <;> rcases current2 with _ | _ <;> simp_all
      by_cases hwt : strip w1.word = ""
      · rw [segLoop_cons_drop mc mw w1 ws1 current1 chars hwt,
          segLoop_cons_drop mc mw w2 ws2 current2 chars (hw ▸ hwt)]
        exact ih ws2 current1 current2 chars hws hlen
      · by_cases hcl : ¬current1.isEmpty
          ∧ (chars + (strip w1.word).length + (if current1.isEmpty then 0 else 1) > mc
              ∨ current1.length ≥ mw)
        · have hcl2 : ¬current2.isEmpty
              ∧ (chars + (strip w2.word).length + (if current2.isEmpty then 0 else 1) > mc
                  ∨ current2.length ≥ mw) := by
            rw [← he, ← hw, ← hlen]
            exact hcl
          rw [segLoop_cons_close mc mw w1 ws1 current1 chars hwt hcl,
            segLoop_cons_close mc mw w2 ws2 current2 chars (hw ▸ hwt) hcl2]
          simp only [List.map_cons, hlen]
          rw [ih ws2 [w1] [w2] (strip w1.word).length hws (by simp), hw]
        · have hcl2 : ¬(¬current2.isEmpty
              ∧ (chars + (strip w2.word).length + (if current2.isEmpty then 0 else 1) > mc
                  ∨ current2.length ≥ mw)) := by
            rw [← he, ← hw, ← hlen]
            exact hcl
          rw [segLoop_cons_append mc mw w1 ws1 current1 chars hwt hcl,
            segLoop_cons_append mc mw w2 ws2 current2 chars (hw ▸ hwt) hcl2]
          rw [← he, ← hw]
          exact ih ws2 (current1 ++ [w1]) (current2 ++ [w2]) _ hws (by simp [hlen])

end SegmenterLemmas

section DemoInputs

/-- A small concrete transcript used to instantiate the universally quantified
theorems: with `max_chars = 32, max_words = 6` it segments into the single
line `hello world again` (the blank word is dropped). -/
def demoWords : List Word :=
  [⟨"hello", 0, 1, 1, "ctc"⟩, ⟨"world", 1, 2, 1, "ctc"⟩,
   ⟨"  ", 2, 3, 1, "ctc"⟩, ⟨"again", 3, 4, 1, "ctc"⟩]

/-- The single line `segment_lines demoWords 32 6` produces. -/
def demoLine : List Word :=
  [⟨"hello", 0, 1, 1, "ctc"⟩, ⟨"world", 1, 2, 1, "ctc"⟩, ⟨"again", 3, 4, 1, "ctc"⟩]

end DemoInputs

/-- C1: concatenating the words of all lines returned by `segment_lines`, in
line order, reproduces the input word sequence exactly, except that words
whose text is empty or whitespace after stripping are dropped; no returned
line is empty.  (Each input word occurrence appears exactly once in the
concatenation, so no word is duplicated or split across lines.) -/
theorem segment_lines_partitions_input (ws : List Word) (mc mw : ℕ) :
    (segment_lines ws mc mw).flatten = ws.filter (fun w => !(strip w.word == ""))
      ∧ ∀ l ∈ segment_lines ws mc mw, l ≠ [] := by
  have h := segLoop_main mc mw ws [] 0 rfl (by simp) (by simp) (by simp)
  exact ⟨by simpa using h.1, fun l hl => (h.2 l hl).1⟩

/-- Witness for C1 at the concrete transcript `demoWords`. -/
theorem segment_lines_partitions_input_witness :
    (segment_lines demoWords 32 6).flatten
        = demoWords.filter (fun w => !(strip w.word == ""))
      ∧ demoLine ≠ [] :=
  ⟨(segment_lines_partitions_input demoWords 32 6).1,
    (segment_lines_partitions_input demoWords 32 6).2 demoLine (by decide)⟩

/-- C2 counterexample: with `max_words = 0` the single word `hi` still becomes
a line of one word, so the claimed bound `l.length ≤ max_words` fails — a line
always holds at least its first word, whatever `max_words` is. -/
theorem segment_lines_max_words_counterexample :
    segment_lines [⟨"hi", 0, 1, 1, "ctc"⟩] 32 0 = [[⟨"hi", 0, 1, 1, "ctc"⟩]]
      ∧ ¬((1 : ℕ) ≤ 0) := by
  constructor
  · decide
  · decide

/-- C2 (amended): `segment_lines` closes the current line and starts a new one
with the next word exactly when the current line is non-empty and (the
projected character count exceeds `max_chars` or the current word count is at
least `max_words`); consequently every output line has at most
`max max_words 1` words (the bound `max_words` itself fails when
`max_words = 0`, since a line always holds its first word), the character
projection of a line with at least two words never exceeds `max_chars`, and a
single word longer than `max_chars` forms its own (over-length) line rather
than being split. -/
theorem segment_lines_break_conditions (ws : List Word) (mc mw : ℕ) :
    (∀ l ∈ segment_lines ws mc mw, l.length ≤ max mw 1)
      ∧ (∀ l ∈ segment_lines ws mc mw, 2 ≤ l.length → lineChars l ≤ mc)
      ∧ (∀ l ∈ segment_lines ws mc mw, ∀ w ∈ l, mc < (strip w.word).length → l = [w])
      ∧ (∀ (w : Word) (ws' current : List Word) (chars : ℕ),
          strip w.word ≠ "" → current ≠ [] →
          (mc < chars + (strip w.word).length + 1 ∨ mw ≤ current.length) →
          segLoop mc mw (w :: ws') current chars
            = current :: segLoop mc mw ws' [w] (strip w.word).length)
      ∧ (∀ (w : Word) (ws' current : List Word) (chars : ℕ),
          strip w.word ≠ "" →
          (current = [] ∨ (chars + (strip w.word).length + 1 ≤ mc ∧ current.length < mw)) →
          segLoop mc mw (w :: ws') current chars
            = segLoop mc mw ws' (current ++ [w])
                (chars + (strip w.word).length + (if current.isEmpty then 0 else 1))) := by
  have h := segLoop_main mc mw ws [] 0 rfl (by simp) (by simp) (by simp)
  refine ⟨fun l hl => (h.2 l hl).2.1, fun l hl => (h.2 l hl).2.2.1,
    fun l hl => (h.2 l hl).2.2.2, ?_, ?_⟩
  · intro w ws' current chars hwt hcur hbreak
    refine segLoop_cons_close mc mw w ws' current chars hwt ⟨by simpa [List.isEmpty_iff], ?_⟩
    have hce : current.isEmpty = false := by simpa [List.isEmpty_iff] using hcur
    rw [hce]
    simp only [Bool.false_eq_true, if_false]
    omega
  · intro w ws' current chars hwt hfit
    refine segLoop_cons_append mc mw w ws' current chars hwt ?_
    rcases hfit with hc0 | ⟨hle, hlt⟩
    · subst hc0
      simp
    · intro hcl
      have hce : current.isEmpty = false := by
        rcases current with _ | _
        · simp at hcl
        · simp
      rw [hce] at hcl
      simp only [Bool.false_eq_true, if_false] at hcl
      omega

/-- Witness for C2 at concrete inputs: the demo line respects the word cap and
the character projection, a 40-character word is isolated on its own line, a
full line is closed when the next word does not fit, and a fitting word is
appended. -/
theorem segment_lines_break_conditions_witness :
    demoLine.length ≤ max 6 1
      ∧ (2 ≤ demoLine.length → lineChars demoLine ≤ 32)
      ∧ segLoop 5 6 [⟨"world", 1, 2, 1, "ctc"⟩] [⟨"hello", 0, 1, 1, "ctc"⟩] 5
          = [⟨"hello", 0, 1, 1, "ctc"⟩] :: segLoop 5 6 [] [⟨"world", 1, 2, 1, "ctc"⟩] 5
      ∧ segLoop 32 6 [⟨"world", 1, 2, 1, "ctc"⟩] [⟨"hello", 0, 1, 1, "ctc"⟩] 5
          = segLoop 32 6 [] [⟨"hello", 0, 1, 1, "ctc"⟩, ⟨"world", 1, 2, 1, "ctc"⟩] 11 :=
  ⟨(segment_lines_break_conditions demoWords 32 6).1 demoLine (by decide),
    (segment_lines_break_conditions demoWords 32 6).2.1 demoLine (by decide),
    by
      have h := (segment_lines_break_conditions demoWords 5 6).2.2.2.1
        ⟨"world", 1, 2, 1, "ctc"⟩ [] [⟨"hello", 0, 1, 1, "ctc"⟩] 5
        (by decide) (by decide) (by decide)
      simpa using h,
    by
      have h := (segment_lines_break_conditions demoWords 32 6).2.2.2.2
        ⟨"world", 1, 2, 1, "ctc"⟩ [] [⟨"hello", 0, 1, 1, "ctc"⟩] 5
        (by decide) (by decide)
      simpa using h⟩

/-- C10: line segmentation is independent of timing data — two word sequences
with position-wise equal stripped texts (timings and confidences arbitrary)
produce the same line-break structure, i.e. the same sequence of line sizes,
hence (with the order preservation of the segmenter) the same partition of
word positions into lines. -/
theorem segment_lines_ignores_timing (ws1 ws2 : List Word) (mc mw : ℕ)
    (h : ws1.map (fun w => strip w.word) = ws2.map (fun w => strip w.word)) :
    (segment_lines ws1 mc mw).map List.length
      = (segment_lines ws2 mc mw).map List.length :=
  segLoop_shape mc mw ws1 ws2 [] [] 0 h rfl

/-- Witness for C10: same texts, shifted timings and confidences, same shape. -/
theorem segment_lines_ignores_timing_witness :
    (segment_lines [⟨"hello", 0, 1, 1, "ctc"⟩, ⟨"world", 1, 2, 1, "ctc"⟩] 8 6).map
        List.length
      = (segment_lines [⟨"hello", 7, 19, 0, "whisper"⟩, ⟨"world", 3, 2, 1/2, "ctc"⟩] 8 6).map
          List.length :=
  segment_lines_ignores_timing
    [⟨"hello", 0, 1, 1, "ctc"⟩, ⟨"world", 1, 2, 1, "ctc"⟩]
    [⟨"hello", 7, 19, 0, "whisper"⟩, ⟨"world", 3, 2, 1/2, "ctc"⟩] 8 6 (by decide)

section CompositorLemmas

/-- The fill fraction exactly as the specification words it:
`clamp((t - start) / max(end - start, 0.01), 0, 1)`. -/
def clampFrac (w : Word) (t : ℚ) : ℚ :=
  max 0 (min 1 ((t - w.start) / max (w.«end» - w.start) (1 / 100)))

lemma denom_pos (w : Word) : 0 < max (w.«end» - w.start) (1 / 100) :=
  lt_of_lt_of_le (by norm_num) (le_max_right _ _)

/-- Within the active window (`start ≤ t`) the code's `min`-only fraction and
the specification's two-sided clamp agree: the lower clamp is a no-op because
the numerator is non-negative. -/
lemma frac_of_eq_clampFrac (w : Word) (t : ℚ) (ht : w.start ≤ t) :
    frac_of w t = clampFrac w t := by
  have hnum : 0 ≤ (t - w.start) / max (w.«end» - w.start) (1 / 100) :=
    div_nonneg (sub_nonneg.mpr ht) (le_of_lt (denom_pos w))
  have h0 : (0 : ℚ) ≤ min 1 ((t - w.start) / max (w.«end» - w.start) (1 / 100)) :=
    le_min (by norm_num) hnum
  rw [clampFrac, frac_of, max_eq_right h0]

/-- The character-cursor pass of the progressive fill colors each character by
comparing its midpoint offset from the word's left edge against `fill_px`. -/
lemma charFill_eq_midpoints (f : ℤ) (cws : List ℕ) :
    ∀ (x : ℤ) (acc : ℕ),
      charFill x f cws (x + (acc : ℤ))
        = (charMidpoints cws acc).map
            (fun (m : ℕ) => if (m : ℤ) ≤ f then COLOR_ACTIVE else COLOR_INACTIVE) := by
  induction cws with
  | nil => intro x acc; rfl
  | cons chw rest ih =>
    intro x acc
    simp only [charFill, charMidpoints, List.map_cons]
    have hc : (x + (acc : ℤ) + ((chw / 2 : ℕ) : ℤ) ≤ x + f)
        ↔ (((acc + chw / 2 : ℕ) : ℤ) ≤ f) := by
      push_cast
      omega
    rw [if_congr hc rfl rfl]
    have harg : x + (acc : ℤ) + (chw : ℤ) = x + ((acc + chw : ℕ) : ℤ) := by
      push_cast
      ring
    rw [harg, ih x (acc + chw)]

/-- Special case of `charFill_eq_midpoints` where the cursor starts at the
word's left edge, as in `render_frame`. -/
lemma charFill_from_left (f : ℤ) (cws : List ℕ) (x : ℤ) :
    charFill x f cws x
      = (charMidpoints cws 0).map
          (fun (m : ℕ) => if (m : ℤ) ≤ f then COLOR_ACTIVE else COLOR_INACTIVE) := by
  have h := charFill_eq_midpoints f cws x 0
  simpa using h

end CompositorLemmas

/-- C3: for a word of the active line at render time `t` (with the data-model
invariant `start ≤ end`): if `end ≤ t` every character is drawn in the sung
tone `COLOR_SUNG`; if `start ≤ t < end` each character is drawn in the active
tone `COLOR_ACTIVE` exactly when its horizontal midpoint lies within
`clamp((t-start)/max(end-start, 0.01), 0, 1)` times the word's measured pixel
width of the word's left edge, else in the upcoming tone `COLOR_INACTIVE`
(white, labelled "upcoming" in the source's color table); if `t < start` every
character is drawn in the upcoming tone. -/
theorem render_frame_active_word_tones (w : Word) (t : ℚ) (x : ℤ) (pw : ℕ)
    (cws : List ℕ) (hw : w.start ≤ w.«end») :
    (w.«end» ≤ t → renderActiveWord w t x pw cws = cws.map fun _ => COLOR_SUNG)
      ∧ (w.start ≤ t ∧ t < w.«end» →
          renderActiveWord w t x pw cws
            = (charMidpoints cws 0).map
                (fun (m : ℕ) => if (m : ℚ) ≤ clampFrac w t * pw
                  then COLOR_ACTIVE else COLOR_INACTIVE))
      ∧ (t < w.start → renderActiveWord w t x pw cws = cws.map fun _ => COLOR_INACTIVE) := by
  refine ⟨fun he => ?_, fun hact => ?_, fun hup => ?_⟩
  · rw [renderActiveWord, if_pos he]
  · have hne : ¬w.«end» ≤ t := not_le.mpr hact.2
    rw [renderActiveWord, if_neg hne, if_pos hact, charFill_from_left]
    have hcond : ∀ m : ℕ, ((m : ℤ) ≤ Int.floor ((pw : ℚ) * frac_of w t))
        ↔ ((m : ℚ) ≤ clampFrac w t * pw) := by
      intro m
      rw [Int.le_floor, frac_of_eq_clampFrac w t hact.1, mul_comm]
      norm_num
    exact List.map_congr_left fun m _ => if_congr (hcond m) rfl rfl
  · have hne : ¬w.«end» ≤ t := not_le.mpr (lt_of_lt_of_le hup hw)
    have hna : ¬(w.start ≤ t ∧ t < w.«end») := fun hc => absurd hc.1 (not_le.mpr hup)
    rw [renderActiveWord, if_neg hne, if_neg hna]

/-- Witness for C3 at a concrete word (`start = 0`, `end = 2`, `t = 1`,
measured width 20, character widths 8 and 8). -/
theorem render_frame_active_word_tones_witness :
    renderActiveWord ⟨"ab", 0, 2, 1, "ctc"⟩ 1 0 20 [8, 8]
      = (charMidpoints [8, 8] 0).map
          (fun (m : ℕ) => if (m : ℚ) ≤ clampFrac ⟨"ab", 0, 2, 1, "ctc"⟩ 1 * 20
            then COLOR_ACTIVE else COLOR_INACTIVE) :=
  (render_frame_active_word_tones ⟨"ab", 0, 2, 1, "ctc"⟩ 1 0 20 [8, 8]
    (by decide)).2.1 ⟨by decide, by decide⟩

section MonotoneLemmas

lemma count_active_map (f : ℤ) (ms : List ℕ) :
    ((ms.map (fun (m : ℕ) => if (m : ℤ) ≤ f then COLOR_ACTIVE else COLOR_INACTIVE)).count
        COLOR_ACTIVE)
      = ms.countP (fun (m : ℕ) => decide ((m : ℤ) ≤ f)) := by
  induction ms with
  | nil => rfl
  | cons m rest ih =>
    have hb : (COLOR_INACTIVE == COLOR_ACTIVE) = false := by decide
    have ha : (COLOR_ACTIVE == COLOR_ACTIVE) = true := by decide
    by_cases h : (m : ℤ) ≤ f
    · simp [List.count_cons, List.countP_cons, ih, h, ha]
    · simp [List.count_cons, List.countP_cons, ih, h, hb]

lemma countP_midpoints_mono (ms : List ℕ) (f1 f2 : ℤ) (h : f1 ≤ f2) :
    ms.countP (fun (m : ℕ) => decide ((m : ℤ) ≤ f1))
      ≤ ms.countP (fun (m : ℕ) => decide ((m : ℤ) ≤ f2)) := by
  induction ms with
  | nil => exact le_refl 0
  | cons m rest ih =>
    by_cases hm : (m : ℤ) ≤ f1
    · have hm2 : (m : ℤ) ≤ f2 := le_trans hm h
      simp [List.countP_cons, hm, hm2]
      omega
    · by_cases hm2 : (m : ℤ) ≤ f2 <;> simp [List.countP_cons, hm, hm2] <;> omega

lemma frac_of_mono (w : Word) {t1 t2 : ℚ} (h : t1 ≤ t2) :
    frac_of w t1 ≤ frac_of w t2 := by
  refine min_le_min (le_refl 1) ?_
  exact (div_le_div_iff_of_pos_right (denom_pos w)).mpr (sub_le_sub_right h _)

end MonotoneLemmas

/-- C5: for a fixed active word (fixed `start`, `end` and character widths),
the number of characters the progressive fill draws in the active tone
`COLOR_ACTIVE` is monotonically non-decreasing in `t` throughout the word's
active window (`start ≤ t < end`, the regime in which `render_frame` runs the
fill). -/
theorem progressive_fill_monotone (w : Word) (pw : ℕ) (cws : List ℕ) (x : ℤ)
    (t1 t2 : ℚ) (h1 : w.start ≤ t1) (h12 : t1 ≤ t2) (h2 : t2 < w.«end») :
    (renderActiveWord w t1 x pw cws).count COLOR_ACTIVE
      ≤ (renderActiveWord w t2 x pw cws).count COLOR_ACTIVE := by
  have h1e : t1 < w.«end» := lt_of_le_of_lt h12 h2
  have h2s : w.start ≤ t2 := le_trans h1 h12
  have hne1 : ¬w.«end» ≤ t1 := not_le.mpr h1e
  have hne2 : ¬w.«end» ≤ t2 := not_le.mpr h2
  simp only [renderActiveWord, if_neg hne1, if_neg hne2, if_pos (And.intro h1 h1e),
    if_pos (And.intro h2s h2), charFill_from_left, count_active_map]
  refine countP_midpoints_mono _ _ _ ?_
  refine Int.floor_le_floor ?_
  exact mul_le_mul_of_nonneg_left (frac_of_mono w h12) (by positivity)

/-- Witness for C5 at a concrete word and two concrete times of its active
window. -/
theorem progressive_fill_monotone_witness :
    (renderActiveWord ⟨"ab", 0, 2, 1, "ctc"⟩ 0 0 20 [8, 8]).count COLOR_ACTIVE
      ≤ (renderActiveWord ⟨"ab", 0, 2, 1, "ctc"⟩ 1 0 20 [8, 8]).count COLOR_ACTIVE :=
  progressive_fill_monotone ⟨"ab", 0, 2, 1, "ctc"⟩ 20 [8, 8] 0 0 1
    (by decide) (by decide) (by decide)

section SelectorLemmas

/-- A line is "active" at `t` when its flattened span (with the 0.1s grace)
contains `t` — the condition of the first loop of `get_active_line_for_time`. -/
def lineActiveAt (line : List Word) (t : ℚ) : Prop :=
  lineStart line ≤ t ∧ t ≤ lineEnd line + 1 / 10

instance (line : List Word) (t : ℚ) : Decidable (lineActiveAt line t) := by
  unfold lineActiveAt
  infer_instance

lemma findActiveLine_some (t : ℚ) :
    ∀ (ls : List (List Word)) (i : ℕ), findActiveLine t ls = some i →
      ∃ line, ls[i]? = some line ∧ lineActiveAt line t
        ∧ ∀ (k : ℕ) (line' : List Word), k < i → ls[k]? = some line' → ¬lineActiveAt line' t := by
  intro ls
  induction ls with
  | nil => intro i h; simp [findActiveLine] at h
  | cons l rest ih =>
    intro i h
    rw [findActiveLine] at h
    by_cases hc : lineStart l ≤ t ∧ t ≤ lineEnd l + 1 / 10
    · rw [if_pos hc] at h
      injection h with h0
      subst h0
      exact ⟨l, by simp, hc, fun k _ hk _ => absurd hk (Nat.not_lt_zero k)⟩
    · rw [if_neg hc] at h
      rcases Option.map_eq_some'.mp h with ⟨j, hj, hji⟩
      subst hji
      obtain ⟨line, hline, hact, hmin⟩ := ih j hj
      refine ⟨line, by simpa using hline, hact, ?_⟩
      intro k line' hk hk'
      rcases k with _ | k
      · intro hact'
        have hle : line' = l := by simpa using hk'.symm
        subst hle
        exact hc hact'
      · exact hmin k line' (Nat.lt_of_succ_lt_succ hk) (by simpa using hk')

lemma findActiveLine_none (t : ℚ) :
    ∀ (ls : List (List Word)), findActiveLine t ls = none →
      ∀ (k : ℕ) (line : List Word), ls[k]? = some line → ¬lineActiveAt line t := by
  intro ls
  induction ls with
  | nil => intro _ k line h; simp at h
  | cons l rest ih =>
    intro h k line hk
    rw [findActiveLine] at h
    by_cases hc : lineStart l ≤ t ∧ t ≤ lineEnd l + 1 / 10
    · rw [if_pos hc] at h; exact absurd h (by simp)
    · rw [if_neg hc] at h
      rcases k with _ | k
      · intro hact
        have hle : line = l := by simpa using hk.symm
        subst hle
        exact hc hact
      · exact ih (by simpa using h) k line (by simpa using hk)

lemma findNextLine_some (t : ℚ) :
    ∀ (ls : List (List Word)) (line : List Word), findNextLine t ls = some line →
      ∃ j, ls[j]? = some line ∧ lineStart line > t
        ∧ ∀ (k : ℕ) (line' : List Word), k < j → ls[k]? = some line' → ¬lineStart line' > t := by
  intro ls
  induction ls with
  | nil => intro line h; simp [findNextLine] at h
  | cons l rest ih =>
    intro line h
    rw [findNextLine] at h
    by_cases hc : lineStart l > t
    · rw [if_pos hc] at h
      injection h with h0
      subst h0
      exact ⟨0, by simp, hc, fun k _ hk _ => absurd hk (Nat.not_lt_zero k)⟩
    · rw [if_neg hc] at h
      obtain ⟨j, hline, hgt, hmin⟩ := ih line h
      refine ⟨j + 1, by simpa using hline, hgt, ?_⟩
      intro k line' hk hk'
      rcases k with _ | k
      · have : line' = l := by simpa using hk'.symm
        subst this
        exact hc
      · exact hmin k line' (Nat.lt_of_succ_lt_succ hk) (by simpa using hk')

lemma findNextLine_none (t : ℚ) :
    ∀ (ls : List (List Word)), findNextLine t ls = none →
      ∀ (k : ℕ) (line : List Word), ls[k]? = some line → ¬lineStart line > t := by
  intro ls
  induction ls with
  | nil => intro _ k line h; simp at h
  | cons l rest ih =>
    intro h k line hk
    rw [findNextLine] at h
    by_cases hc : lineStart l > t
    · rw [if_pos hc] at h; exact absurd h (by simp)
    · rw [if_neg hc] at h
      rcases k with _ | k
      · have : line = l := by simpa using hk.symm
        subst this
        exact hc
      · exact ih h k line (by simpa using hk)

end SelectorLemmas

/-- C4: for every line list (no line empty) and every time `t`: when
`get_active_line_for_time` returns an active index, the indexed line satisfies
`first.start ≤ t ≤ last.end + 0.1`; when it returns none (silence), its
`seconds_to_next` is `next.start - t` for the first line whose start strictly
exceeds `t`, and `0` (song over) when no such line exists. -/
theorem get_active_line_window (lines : List (List Word)) (t : ℚ)
    (_hne : lines ≠ []) (_hl : ∀ l ∈ lines, l ≠ []) :
    (∀ i, (get_active_line_for_time lines t).1 = some i →
        ∃ line, lines[i]? = some line
          ∧ lineStart line ≤ t ∧ t ≤ lineEnd line + 1 / 10)
      ∧ ((get_active_line_for_time lines t).1 = none →
          (∃ j line, lines[j]? = some line ∧ lineStart line > t
              ∧ (∀ (k : ℕ) (line' : List Word), k < j → lines[k]? = some line' → ¬lineStart line' > t)
              ∧ (get_active_line_for_time lines t).2.2 = lineStart line - t)
          ∨ ((∀ (k : ℕ) (line : List Word), lines[k]? = some line → ¬lineStart line > t)
              ∧ (get_active_line_for_time lines t).2.2 = 0)) := by
  unfold get_active_line_for_time
  cases hfa : findActiveLine t lines with
  | some li =>
    refine ⟨fun i hi => ?_, fun hnone => by simp at hnone⟩
    simp only [Option.some.injEq] at hi
    subst hi
    obtain ⟨line, hline, hact, _⟩ := findActiveLine_some t lines li hfa
    exact ⟨line, hline, hact.1, hact.2⟩
  | none =>
    cases hfn : findNextLine t lines with
    | some line =>
      refine ⟨fun i hi => by simp at hi, fun _ => Or.inl ?_⟩
      obtain ⟨j, hline, hgt, hmin⟩ := findNextLine_some t lines line hfn
      exact ⟨j, line, hline, hgt, hmin, rfl⟩
    | none =>
      refine ⟨fun i hi => by simp at hi, fun _ => Or.inr ?_⟩
      exact ⟨findNextLine_none t lines hfn, rfl⟩

/-- Witness for C4: a concrete two-line timeline probed inside the first
line's span. -/
theorem get_active_line_window_witness :
    ∃ line, ([[(⟨"a", 1, 2, 1, "ctc"⟩ : Word)], [⟨"b", 3, 4, 1, "ctc"⟩]])[0]? = some line
      ∧ lineStart line ≤ (3 / 2 : ℚ) ∧ (3 / 2 : ℚ) ≤ lineEnd line + 1 / 10 :=
  (get_active_line_window [[⟨"a", 1, 2, 1, "ctc"⟩], [⟨"b", 3, 4, 1, "ctc"⟩]] (3 / 2)
      (by decide) (by decide)).1 0
    (by norm_num [get_active_line_for_time, findActiveLine, lineStart, lineEnd])

/-- C9: `get_active_line_for_time` always returns one of two shapes —
`(some idx, false, 0)` with `idx` a valid line index, or `(none, true, s)`
with `s ≥ 0`; `is_silence` holds exactly when the index is none, and the index
returned is the smallest index of a line whose span contains `t`. -/
theorem get_active_line_shape (lines : List (List Word)) (t : ℚ) :
    ((get_active_line_for_time lines t).2.1 = true
        ↔ (get_active_line_for_time lines t).1 = none)
      ∧ (∀ i, (get_active_line_for_time lines t).1 = some i →
          i < lines.length ∧ (get_active_line_for_time lines t).2.2 = 0)
      ∧ ((get_active_line_for_time lines t).1 = none →
          0 ≤ (get_active_line_for_time lines t).2.2)
      ∧ (∀ i, (get_active_line_for_time lines t).1 = some i →
          ∃ line, lines[i]? = some line ∧ lineActiveAt line t
            ∧ ∀ (k : ℕ) (line' : List Word), k < i → lines[k]? = some line' → ¬lineActiveAt line' t) := by
  unfold get_active_line_for_time
  cases hfa : findActiveLine t lines with
  | some li =>
    obtain ⟨line, hline, hact, hmin⟩ := findActiveLine_some t lines li hfa
    refine ⟨by simp, fun i hi => ?_, fun hnone => by simp at hnone, fun i hi => ?_⟩
    · simp only [Option.some.injEq] at hi
      subst hi
      exact ⟨(List.getElem?_eq_some_iff.mp hline).1, rfl⟩
    · simp only [Option.some.injEq] at hi
      subst hi
      exact ⟨line, hline, hact, hmin⟩
  | none =>
    cases hfn : findNextLine t lines with
    | some line =>
      obtain ⟨j, _, hgt, _⟩ := findNextLine_some t lines line hfn
      refine ⟨by simp, fun i hi => by simp at hi, fun _ => ?_, fun i hi => by simp at hi⟩
      have : (0 : ℚ) < lineStart line - t := sub_pos.mpr hgt
      exact le_of_lt this
    | none =>
      exact ⟨by simp, fun i hi => by simp at hi, fun _ => le_refl 0,
        fun i hi => by simp at hi⟩

/-- Witness for C9: the concrete timeline probed in a gap between its lines
(silence branch, positive countdown). -/
theorem get_active_line_shape_witness :
    (0 : ℚ) ≤ (get_active_line_for_time
        [[(⟨"a", 1, 2, 1, "ctc"⟩ : Word)], [⟨"b", 3, 4, 1, "ctc"⟩]] (5 / 2)).2.2 :=
  (get_active_line_shape [[⟨"a", 1, 2, 1, "ctc"⟩], [⟨"b", 3, 4, 1, "ctc"⟩]] (5 / 2)).2.2.1
    (by norm_num [get_active_line_for_time, findActiveLine, findNextLine, lineStart, lineEnd])

section PumpLemmas

/-- A transcript whose every record strips to empty text segments into no
lines at all. -/
lemma segment_lines_all_blank (words : List Word) (mc mw : ℕ)
    (h : ∀ w ∈ words, strip w.word = "") :
    segment_lines words mc mw = [] := by
  unfold segment_lines
  induction words with
  | nil => rfl
  | cons w ws ih =>
    rw [segLoop_cons_drop mc mw w ws [] 0 (h w (List.mem_cons_self w ws))]
    exact ih fun w' hw' => h w' (List.mem_cons_of_mem w hw')

/-- With no lines, every frame of the render loop is the title card: the
selector returns `(None, True, 0)`, so the countdown branch is skipped and
there is no active line. -/
lemma frameKindAt_nil (t : ℚ) : frameKindAt [] t = FrameKind.titleCard := by
  simp [frameKindAt, get_active_line_for_time, findActiveLine, findNextLine]

end PumpLemmas

/-- C6 counterexample: the pipeline has no `MalformedTimelineError` and does
not fail on an empty transcript — `render_video` on the empty word list (with
a 1-second audio track at 30 fps) opens the encoder pipe and writes 30
frames, contradicting "zero frames rendered and the encoder pipe never
opened". -/
theorem render_video_empty_transcript_counterexample :
    (render_video [] 1 30).pipeOpened = true
      ∧ (render_video [] 1 30).frames.length = 30
      ∧ ¬((render_video [] 1 30).frames.length = 0) := by
  have hlen : (render_video [] 1 30).frames.length = 30 := by
    norm_num [render_video]
    decide
  exact ⟨rfl, hlen, by rw [hlen]; decide⟩

/-- C6 (amended): given an empty transcript (empty word sequence, or one in
which every record's text is empty after stripping), the pipeline does not
fail — there is no `MalformedTimelineError` anywhere in the code.
`segment_lines` returns no lines, the encoder pipe is still opened, all
`int(duration * fps)` frames are still rendered, and every one of them is the
title card. -/
theorem render_video_empty_transcript (words : List Word) (duration : ℚ) (fps : ℕ)
    (h : ∀ w ∈ words, strip w.word = "") :
    (render_video words duration fps).pipeOpened = true
      ∧ ((render_video words duration fps).frames.length : ℤ)
          = max (Int.floor (duration * fps)) 0
      ∧ ∀ f ∈ (render_video words duration fps).frames, f.2.2 = FrameKind.titleCard := by
  have hseg : segment_lines words 32 6 = [] := segment_lines_all_blank words 32 6 h
  refine ⟨rfl, ?_, ?_⟩
  · simp only [render_video, List.length_map, List.length_range]
    exact_mod_cast Int.toNat_eq_max (Int.floor (duration * fps))
  · intro f hf
    simp only [render_video, List.mem_map] at hf
    obtain ⟨fn, _, rfl⟩ := hf
    show frameKindAt (segment_lines words 32 6) ((fn : ℚ) / fps) = FrameKind.titleCard
    rw [hseg]
    exact frameKindAt_nil _

/-- Witness for C6 (amended) at a concrete all-whitespace transcript. -/
theorem render_video_empty_transcript_witness :
    (render_video [⟨"  ", 0, 1, 1, "ctc"⟩] 1 30).pipeOpened = true
      ∧ ((render_video [⟨"  ", 0, 1, 1, "ctc"⟩] 1 30).frames.length : ℤ)
          = max (Int.floor ((1 : ℚ) * ((30 : ℕ) : ℚ))) 0
      ∧ ∀ f ∈ (render_video [⟨"  ", 0, 1, 1, "ctc"⟩] 1 30).frames,
          f.2.2 = FrameKind.titleCard :=
  render_video_empty_transcript [⟨"  ", 0, 1, 1, "ctc"⟩] 1 30 (by decide)

/-- C7: for every duration `d ≥ 0` and frame rate, the frame pump writes
exactly `int(d * fps) = floor(d * fps)` frames; the frame indices written form
`range total_frames` in order (strictly increasing, none dropped or
reordered), and frame `k` is rendered at `t = k / fps` from the segmented
lines. -/
theorem frame_pump_in_order (words : List Word) (duration : ℚ) (fps : ℕ)
    (hd : 0 ≤ duration) :
    ((render_video words duration fps).frames.length : ℤ) = Int.floor (duration * fps)
      ∧ (render_video words duration fps).frames.map (fun f => f.1)
          = List.range (render_video words duration fps).frames.length
      ∧ ∀ (k : ℕ), k < (render_video words duration fps).frames.length →
          (render_video words duration fps).frames[k]?
            = some (k, (k : ℚ) / fps, frameKindAt (segment_lines words 32 6) ((k : ℚ) / fps)) := by
  have hfl : 0 ≤ Int.floor (duration * fps) :=
    Int.floor_nonneg.mpr (mul_nonneg hd (by positivity))
  refine ⟨?_, ?_, ?_⟩
  · simp only [render_video, List.length_map, List.length_range]
    exact_mod_cast Int.toNat_of_nonneg hfl
  · simp only [render_video, List.map_map, List.length_map, List.length_range]
    have hid : ((fun (f : ℕ × ℚ × FrameKind) => f.1) ∘ fun (fn : ℕ) =>
        (fn, ((fn : ℚ) / fps), frameKindAt (segment_lines words 32 6) ((fn : ℚ) / fps))) = id :=
      rfl
    rw [hid, List.map_id]
  · intro k hk
    simp only [render_video, List.length_map, List.length_range] at hk
    simp [render_video, List.getElem?_map, List.getElem?_range, hk]

/-- Witness for C7 at the concrete transcript `demoWords`, 1 second at 30 fps;
the first frame written is frame 0 at `t = 0`. -/
theorem frame_pump_in_order_witness :
    ((render_video demoWords 1 30).frames.length : ℤ) = Int.floor ((1 : ℚ) * ((30 : ℕ) : ℚ))
      ∧ (render_video demoWords 1 30).frames[0]?
          = some (0, (0 : ℚ) / 30, frameKindAt (segment_lines demoWords 32 6) ((0 : ℚ) / 30)) :=
  ⟨(frame_pump_in_order demoWords 1 30 (by decide)).1,
    (frame_pump_in_order demoWords 1 30 (by decide)).2.2 0 (by norm_num [render_video])⟩

/-- C8 counterexample: `get_audio_duration` does not fail with
`AudioProbeError` when the probed duration is not a positive float — a probe
output parsing as `-1` is returned as the duration with no error — and a
missing file (unparseable/empty ffprobe output) raises Python's `ValueError`
from `float(...)`, not an `AudioProbeError`. -/
theorem get_audio_duration_counterexample :
    get_audio_duration (some (-1)) = Except.ok (-1)
      ∧ get_audio_duration none = Except.error PyExc.valueError
      ∧ (Except.error PyExc.valueError : Except PyExc ℚ)
          ≠ Except.error PyExc.audioProbeError :=
  ⟨rfl, rfl, fun h => PyExc.noConfusion (Except.error.inj h)⟩

/-- C8 (amended): `get_audio_duration` returns whatever duration the probe's
stdout parses to — with no positivity or any other validation — and when the
stdout does not parse as a float (in particular when the file is missing and
ffprobe prints nothing), it raises `ValueError`; an `AudioProbeError` is never
raised (no such type exists in the code). -/
theorem get_audio_duration_no_validation (probe : Option ℚ) :
    (∀ d : ℚ, probe = some d → get_audio_duration probe = Except.ok d)
      ∧ (probe = none → get_audio_duration probe = Except.error PyExc.valueError)
      ∧ (∀ e : PyExc, get_audio_duration probe = Except.error e → e = PyExc.valueError) := by
  refine ⟨fun d hd => ?_, fun hn => ?_, fun e he => ?_⟩
  · rw [hd]; rfl
  · rw [hn]; rfl
  · cases probe with
    | none =>
      have : PyExc.valueError = e := Except.error.inj he
      exact this.symm
    | some d => exact absurd he (by simp [get_audio_duration])

/-- Witness for C8 (amended): a parsed duration of 5 is returned as-is, a
non-positive parsed duration is also returned as-is, and a missing probe
output raises `ValueError`. -/
theorem get_audio_duration_no_validation_witness :
    get_audio_duration (some 5) = Except.ok 5
      ∧ get_audio_duration (some (-2)) = Except.ok (-2)
      ∧ get_audio_duration none = Except.error PyExc.valueError :=
  ⟨(get_audio_duration_no_validation (some 5)).1 5 rfl,
    (get_audio_duration_no_validation (some (-2))).1 (-2) rfl,
    (get_audio_duration_no_validation none).2.1 rfl⟩

end Karaoke
